import Mathlib

/-!
Shallow embedding of `src/main.rs` of the `branch-time` tool.

Commits of a repository are modelled as natural numbers below `Repo.n`,
indexed in topological order: every parent of a commit carries a strictly
smaller index than the commit itself (parents are older than children).
The libgit2 primitives the program calls (`revparse_single`, `merge_base`,
and a revwalk driven by `push`/`hide`) are embedded with their documented
semantics: the revwalk emits exactly the commits reachable from some
pushed root and not reachable from any hidden root (hidden commits and
all of their ancestors are marked uninteresting and never yielded, even
when they were also pushed), children before parents.

The GitHub side is embedded by a `World` holding the optional value of the
`GITHUB_STATS_TOKEN` environment variable and the parsed JSON response the
code host returns for each request URL; commit author dates are modelled
directly as their parsed epoch seconds.
-/

namespace BranchTime

/-- A git repository as seen through the libgit2 calls the program makes:
commit metadata indexed by commit number, and a ref table for revparse. -/
structure Repo where
  n : Nat
  parents : Nat → List Nat
  timestamp : Nat → Int
  sha : Nat → String
  summary : Nat → Option String
  refs : List (String × Nat)

/-- Parent links actually followed by the walk: parents are older commits,
hence carry a strictly smaller index under the topological indexing. -/
def parentsOf (r : Repo) (a : Nat) : List Nat :=
  (r.parents a).filter (fun p => decide (p < a))

/-- Fuel-bounded ancestry test; fuel `a + 1` is always enough because the
followed parent links strictly decrease. -/
def reachAux (r : Repo) : Nat → Nat → Nat → Bool
  | 0, _, _ => false
  | fuel + 1, a, b => a == b || (parentsOf r a).any (fun p => reachAux r fuel p b)

/-- Commit `b` is an ancestor of commit `a` (reflexively): `b` is reachable
from `a` by following parent links. -/
def reachableB (r : Repo) (a b : Nat) : Bool := reachAux r (a + 1) a b

theorem any_congr_mem {α : Type} (l : List α) (f g : α → Bool)
    (h : ∀ x ∈ l, f x = g x) : l.any f = l.any g := by
  induction l with
  | nil => rfl
  | cons a t ih =>
    simp only [List.any_cons]
    rw [h a (List.mem_cons_self a t), ih (fun x hx => h x (List.mem_cons_of_mem a hx))]

theorem mem_parentsOf_lt {r : Repo} {a p : Nat} (hp : p ∈ parentsOf r a) : p < a := by
  have h := (List.mem_filter.mp hp).2
  simpa using h

theorem reachAux_congr (r : Repo) :
    ∀ a f1 f2, a < f1 → a < f2 → ∀ b, reachAux r f1 a b = reachAux r f2 a b := by
  intro a
  induction a using Nat.strong_induction_on with
  | _ a ih =>
    intro f1 f2 h1 h2 b
    cases f1 with
    | zero => omega
    | succ g1 =>
      cases f2 with
      | zero => omega
      | succ g2 =>
        simp only [reachAux]
        have hany : (parentsOf r a).any (fun p => reachAux r g1 p b)
            = (parentsOf r a).any (fun p => reachAux r g2 p b) := by
          apply any_congr_mem
          intro p hp
          have hpa : p < a := mem_parentsOf_lt hp
          exact ih p hpa g1 g2 (by omega) (by omega) b
        rw [hany]

/-- Unfolding equation for `reachableB`. -/
theorem reachableB_eq (r : Repo) (a b : Nat) :
    reachableB r a b = (a == b || (parentsOf r a).any (fun p => reachableB r p b)) := by
  show reachAux r (a + 1) a b = _
  simp only [reachAux]
  have hany : (parentsOf r a).any (fun p => reachAux r a p b)
      = (parentsOf r a).any (fun p => reachableB r p b) := by
    apply any_congr_mem
    intro p hp
    exact reachAux_congr r p a (p + 1) (mem_parentsOf_lt hp) (by omega) b
  rw [hany]

theorem reachableB_refl (r : Repo) (a : Nat) : reachableB r a a = true := by
  rw [reachableB_eq]; simp

theorem reachableB_le (r : Repo) : ∀ a b, reachableB r a b = true → b ≤ a := by
  intro a
  induction a using Nat.strong_induction_on with
  | _ a ih =>
    intro b hab
    rw [reachableB_eq] at hab
    simp only [Bool.or_eq_true, beq_iff_eq] at hab
    rcases hab with h | h
    · exact Nat.le_of_eq h.symm
    · obtain ⟨p, hp, hr⟩ := List.any_eq_true.mp h
      have hpa : p < a := mem_parentsOf_lt hp
      exact Nat.le_of_lt (Nat.lt_of_le_of_lt (ih p hpa b hr) hpa)

theorem reachableB_trans (r : Repo) :
    ∀ a b c, reachableB r a b = true → reachableB r b c = true → reachableB r a c = true := by
  intro a
  induction a using Nat.strong_induction_on with
  | _ a ih =>
    intro b c hab hbc
    rw [reachableB_eq] at hab
    simp only [Bool.or_eq_true, beq_iff_eq] at hab
    rcases hab with h | h
    · rw [h]; exact hbc
    · obtain ⟨p, hp, hr⟩ := List.any_eq_true.mp h
      have hpa : p < a := mem_parentsOf_lt hp
      have hpc : reachableB r p c = true := ih p hpa b c hr hbc
      rw [reachableB_eq]
      simp only [Bool.or_eq_true]
      exact Or.inr (List.any_eq_true.mpr ⟨p, hp, hpc⟩)

/-- Common ancestors of two commits: commits reachable from both, listed in
ascending index order. -/
def commonAncestors (r : Repo) (f t : Nat) : List Nat :=
  (List.range r.n).filter (fun c => reachableB r f c && reachableB r t c)

/-- A best common ancestor: a common ancestor that is not itself a proper
ancestor of another common ancestor. -/
def isBestCommonAncestor (r : Repo) (f t c : Nat) : Bool :=
  (commonAncestors r f t).all (fun d => d == c || !(reachableB r d c))

/-- Embedding of libgit2's `git_merge_base`: one best common ancestor, or
none (the `GIT_ENOTFOUND` error) when the two commits share no history.
Which best ancestor is picked when several exist is unspecified by libgit2;
the embedding deterministically picks the first. -/
def merge_base (r : Repo) (f t : Nat) : Option Nat :=
  ((commonAncestors r f t).filter (isBestCommonAncestor r f t)).head?

/-- Embedding of the libgit2 revwalk configured by the program: `push` roots
and `hide` roots, output = commits reachable from some pushed root and not
reachable from any hidden root, children before parents. -/
def revwalkOutput (r : Repo) (pushed hidden : List Nat) : List Nat :=
  ((List.range r.n).reverse).filter
    (fun c => pushed.any (fun p => reachableB r p c) && !(hidden.any (fun h => reachableB r h c)))

theorem mem_head? {α : Type} {l : List α} {a : α} (h : l.head? = some a) : a ∈ l := by
  cases l with
  | nil => simp at h
  | cons x xs =>
    simp only [List.head?] at h
    injection h with h
    rw [← h]; exact List.mem_cons_self x xs

theorem mem_commonAncestors {r : Repo} {f t c : Nat} :
    c ∈ commonAncestors r f t ↔
      c < r.n ∧ reachableB r f c = true ∧ reachableB r t c = true := by
  simp [commonAncestors, List.mem_filter, List.mem_range, Bool.and_eq_true]

theorem merge_base_mem {r : Repo} {f t b : Nat} (h : merge_base r f t = some b) :
    b < r.n ∧ reachableB r f b = true ∧ reachableB r t b = true := by
  have hb : b ∈ (commonAncestors r f t).filter (isBestCommonAncestor r f t) := mem_head? h
  exact mem_commonAncestors.mp (List.mem_filter.mp hb).1

theorem merge_base_eq_none {r : Repo} {f t : Nat}
    (h : ∀ c, c < r.n → ¬(reachableB r f c = true ∧ reachableB r t c = true)) :
    merge_base r f t = none := by
  have hca : commonAncestors r f t = [] := by
    apply List.filter_eq_nil_iff.mpr
    intro c hc
    have hcn : c < r.n := List.mem_range.mp hc
    intro hand
    simp only [Bool.and_eq_true] at hand
    exact h c hcn hand
  simp [merge_base, hca]

theorem filter_beq_of_nodup {l : List Nat} {a : Nat} (hn : l.Nodup) (ha : a ∈ l) :
    l.filter (fun d => d == a) = [a] := by
  induction l with
  | nil => simp at ha
  | cons x xs ih =>
    rcases List.mem_cons.mp ha with h | h
    · have hx : x = a := h.symm
      subst hx
      have hnx : x ∉ xs := (List.nodup_cons.mp hn).1
      have : xs.filter (fun d => d == x) = [] := by
        apply List.filter_eq_nil_iff.mpr
        intro d hd
        simp only [beq_iff_eq]
        intro hdx
        rw [hdx] at hd
        exact hnx hd
      simp [List.filter_cons, this]
    · have hxa : (x == a) = false := by
        simp only [beq_eq_false_iff_ne]
        intro hxx
        rw [hxx] at hn
        exact (List.nodup_cons.mp hn).1 h
      have ih2 := ih (List.nodup_cons.mp hn).2 h
      simp [List.filter_cons, hxa, ih2]

theorem nodup_commonAncestors (r : Repo) (f t : Nat) : (commonAncestors r f t).Nodup :=
  (List.nodup_range r.n).filter _

/-- When the two sides coincide, the commit itself is the merge base. -/
theorem merge_base_self {r : Repo} {c : Nat} (h : c < r.n) : merge_base r c c = some c := by
  have hmem : c ∈ commonAncestors r c c :=
    mem_commonAncestors.mpr ⟨h, reachableB_refl r c, reachableB_refl r c⟩
  have hbest_c : isBestCommonAncestor r c c c = true := by
    apply List.all_eq_true.mpr
    intro e he
    rcases mem_commonAncestors.mp he with ⟨_, hce, _⟩
    by_cases hec : e = c
    · simp [hec]
    · have hne : reachableB r e c = false := by
        cases hx : reachableB r e c with
        | false => rfl
        | true =>
          have h1 : c ≤ e := reachableB_le r e c hx
          have h2 : e ≤ c := reachableB_le r c e hce
          exact absurd (show e = c by omega) hec
      simp [hne]
  have hbest_ne : ∀ d, d ∈ commonAncestors r c c → d ≠ c →
      isBestCommonAncestor r c c d = false := by
    intro d hd hdc
    rcases mem_commonAncestors.mp hd with ⟨_, hcd, _⟩
    apply Bool.eq_false_iff.mpr
    intro hall
    have hcontra := List.all_eq_true.mp hall c hmem
    simp only [Bool.or_eq_true, beq_iff_eq, Bool.not_eq_true'] at hcontra
    rcases hcontra with h1 | h2
    · exact hdc h1.symm
    · simp [h2] at hcd
  have hbest : ∀ d ∈ commonAncestors r c c, isBestCommonAncestor r c c d = (d == c) := by
    intro d hd
    by_cases hdc : d = c
    · rw [hdc]
      simp [hbest_c]
    · have hdf : (d == c) = false := beq_eq_false_iff_ne.mpr hdc
      rw [hbest_ne d hd hdc, hdf]
  have hfe : (commonAncestors r c c).filter (isBestCommonAncestor r c c)
      = (commonAncestors r c c).filter (fun d => d == c) :=
    List.filter_congr hbest
  have hone : (commonAncestors r c c).filter (fun d => d == c) = [c] :=
    filter_beq_of_nodup (nodup_commonAncestors r c c) hmem
  simp [merge_base, hfe, hone]

theorem mem_revwalkOutput {r : Repo} {pushed hidden : List Nat} {c : Nat} :
    c ∈ revwalkOutput r pushed hidden ↔
      c < r.n ∧ (∃ p ∈ pushed, reachableB r p c = true) ∧
        ∀ h ∈ hidden, reachableB r h c = false := by
  simp only [revwalkOutput, List.mem_filter, List.mem_reverse, List.mem_range,
    Bool.and_eq_true, Bool.not_eq_true', List.any_eq_true, List.any_eq_false,
    Bool.not_eq_true]

/-- Errors returned by the embedded libgit2 calls. -/
inductive GitError where
  | referenceNotFound
  | noCommonAncestor
deriving DecidableEq, Repr

/-- Outcome of running a piece of the program: a value, a returned error,
or a process abort (a Rust panic, e.g. from `unwrap`/`expect`). -/
inductive RunResult (α : Type) where
  | ok : α → RunResult α
  | error : GitError → RunResult α
  | panicked : RunResult α
deriving DecidableEq, Repr

/-- Embedding of `repo.revparse_single(ref)` followed by `.id()`: look the
ref up in the repository's ref table. -/
def revparse_single (r : Repo) (refName : String) : Except GitError Nat :=
  match r.refs.lookup refName with
  | some c => Except.ok c
  | none => Except.error GitError.referenceNotFound

/-- Mirror of the `GithubCommitter` struct; the `date` string of the JSON
response is modelled by the epoch seconds its successful parse yields. -/
structure GithubCommitter where
  name : String
  email : String
  dateSeconds : Int

/-- Mirror of the `GithubCommitInfo` struct. -/
structure GithubCommitInfo where
  author : GithubCommitter
  committer : GithubCommitter
  message : String

/-- Mirror of the `GithubCommit` struct. -/
structure GithubCommit where
  sha : String
  commit : GithubCommitInfo

/-- The ambient effects the program touches: the optional value of the
`GITHUB_STATS_TOKEN` environment variable, and the parsed JSON list the
code host returns for each request URL. -/
structure World where
  token : Option String
  api : String → List GithubCommit

/-- The request URL built in `fetch_github_info_for_commit`: the GitHub
repository is the hardcoded `THG-Voyager/voyager`. -/
def github_url (pr_number access_token : String) : String :=
  "https://api.github.com/repos/THG-Voyager/voyager/pulls/" ++ pr_number
    ++ "/commits?access_token=" ++ access_token

/-- Embedding of `fetch_github_info_for_commit`: read the token from the
environment (an `Err` when it is unset), fetch the PR's commit list, and
subtract the first listed commit's author date from the commit timestamp;
an empty list yields `Ok(None)`. -/
def fetch_github_info_for_commit (w : World) (commit_ts : Int) (pr_number : String) :
    Except String (Option Int) :=
  match w.token with
  | some val =>
    match (w.api (github_url pr_number val)).head? with
    | some c => Except.ok (some (commit_ts - c.commit.author.dateSeconds))
    | none => Except.ok none
  | none => Except.error "Token not found!"

/-- One attempt of the regex `\(#(\d+)\)` anchored at the start of `l`: an
open paren, a hash sign, a greedy nonempty digit run, a close paren; the
digit run is returned. -/
def matchTrailerAt (l : List Char) : Option (List Char) :=
  match l with
  | a :: b :: rest =>
    if a = '(' ∧ b = '#' then
      if rest.takeWhile Char.isDigit = [] then none
      else if (rest.dropWhile Char.isDigit).head? = some ')' then
        some (rest.takeWhile Char.isDigit)
      else none
    else none
  | _ => none

/-- Leftmost-match scan of the regex crate's `captures`: try each start
position from the left and return the first capture. -/
def scanTrailer : List Char → Option (List Char)
  | [] => none
  | c :: cs =>
    match matchTrailerAt (c :: cs) with
    | some ds => some ds
    | none => scanTrailer cs

/-- Embedding of `extract_pr_from_commit_message`: capture group 1 of the
first (leftmost) match of `\(#(\d+)\)` in the message, if any. -/
def extract_pr_from_commit_message (commit_message : String) : Option String :=
  (scanTrailer commit_message.data).map List.asString

/-- Embedding of `commit_to_formatted_output` for one commit, given its
sha, timestamp and optional summary line.  `none` models the panic raised
by `commit.summary().unwrap()` on a missing summary or by `.unwrap()` on a
failed `fetch_github_info_for_commit`; otherwise the produced CSV line is
returned.  The function never returns the `Err` arm of its Rust `Result`. -/
def commit_to_formatted_output (w : World) (sha : String) (commit_ts : Int)
    (summary : Option String) : Option String :=
  match summary with
  | none => none
  | some message =>
    match extract_pr_from_commit_message message with
    | some pr_number =>
      match fetch_github_info_for_commit w commit_ts pr_number with
      | Except.error _ => none
      | Except.ok (some bt) =>
        some (sha ++ "," ++ toString commit_ts ++ "," ++ toString bt ++ "," ++ message)
      | Except.ok none =>
        some (sha ++ "," ++ toString commit_ts ++ "," ++ "unknown" ++ "," ++ message)
    | none =>
      some (sha ++ "," ++ toString commit_ts ++ "," ++ "unknown" ++ "," ++ message)

/-- Collect the per-commit rows, aborting (as `.unwrap()` does) at the
first row whose formatting panicked. -/
def sequenceRows : List (Option String) → Option (List String)
  | [] => some []
  | none :: _ => none
  | some row :: rest => (sequenceRows rest).map (fun l => row :: l)

/-- Embedding of `get_commit_log`: resolve both refs, compute the merge
base (erroring when there is none), run the revwalk with roots `to` and
the merge base and with `from` hidden, format every walked commit and join
the rows with newlines. -/
def get_commit_log (w : World) (r : Repo) (fromRef toRef : String) : RunResult String :=
  match revparse_single r fromRef with
  | Except.error e => RunResult.error e
  | Except.ok fc =>
    match revparse_single r toRef with
    | Except.error e => RunResult.error e
    | Except.ok tc =>
      match merge_base r fc tc with
      | none => RunResult.error GitError.noCommonAncestor
      | some base =>
        match sequenceRows ((revwalkOutput r [tc, base] [fc]).map
            (fun c => commit_to_formatted_output w (r.sha c) (r.timestamp c) (r.summary c))) with
        | none => RunResult.panicked
        | some rows => RunResult.ok (String.intercalate "\n" rows)

/-- The range `get_commit_log` iterates over, as a function of the two
resolved commits: defined exactly as the walk `get_commit_log` performs. -/
def resolvedRange (r : Repo) (fc tc : Nat) : Option (List Nat) :=
  (merge_base r fc tc).map (fun base => revwalkOutput r [tc, base] [fc])

/-- The docopt usage string of the program, verbatim. -/
def USAGE : String := "\nUsage: branch-time <git_repo_path> <from_tag> <to_tag>\n"

/-- The positional arguments the usage string declares: the whitespace
separated tokens of `USAGE` that are wrapped in angle brackets. -/
def usagePositionalArgs : List String :=
  ((USAGE.data.splitOn ' ').filter (fun t => t.head? = some '<')).map
    (fun t => (t.filter (fun c => c != '\n')).asString)

/-- Charwise embedding of `replace("/", "-")`: equivalent to the Rust
substring replace because both pattern and replacement are single chars. -/
def replaceSlashDash (s : String) : String :=
  (s.data.map (fun x => if x = '/' then '-' else x)).asString

/-- The fixed derived output path of `main`. -/
def output_file_path (from_tag to_tag : String) : String :=
  "/tmp/branch-times-" ++ replaceSlashDash from_tag ++ "-"
    ++ replaceSlashDash to_tag ++ ".csv"

/-- Embedding of `main` after argument parsing: run `get_commit_log`
(`.expect` turns its error into a panic) and write the result to the
derived path; the model returns the written path and contents. -/
def main_model (w : World) (r : Repo) (from_tag to_tag : String) :
    RunResult (String × String) :=
  match get_commit_log w r from_tag to_tag with
  | RunResult.ok s => RunResult.ok (output_file_path from_tag to_tag, s)
  | RunResult.error _ => RunResult.panicked
  | RunResult.panicked => RunResult.panicked

/-- Linear two-commit repository: commit 1 (ref `b`) on top of commit 0
(ref `a`); neither summary carries a PR trailer. -/
def repoA : Repo :=
  ⟨2, fun i => if i = 1 then [0] else [], fun i => if i = 1 then 5 else 1,
    fun i => if i = 1 then "s1" else "s0",
    fun i => if i = 1 then some "msg one" else some "base commit",
    [("a", 0), ("b", 1)]⟩

/-- Like `repoA`, but the tip commit's summary carries the trailer `(#7)`. -/
def repoPR : Repo :=
  ⟨2, fun i => if i = 1 then [0] else [], fun i => if i = 1 then 5 else 1,
    fun i => if i = 1 then "s1" else "s0",
    fun i => if i = 1 then some "fix stuff (#7)" else some "base commit",
    [("a", 0), ("b", 1)]⟩

/-- Like `repoA`, but the tip commit has no summary line. -/
def repoNoSum : Repo :=
  ⟨2, fun i => if i = 1 then [0] else [], fun i => if i = 1 then 5 else 1,
    fun i => if i = 1 then "s1" else "s0",
    fun i => if i = 1 then none else some "base commit",
    [("a", 0), ("b", 1)]⟩

/-- Two root commits with disjoint (empty) ancestries. -/
def repoDisj : Repo :=
  ⟨2, fun _ => [], fun _ => 0, fun i => if i = 1 then "s1" else "s0",
    fun _ => some "m", [("a", 0), ("b", 1)]⟩

/-- A single commit that both refs point at. -/
def repoOne : Repo :=
  ⟨1, fun _ => [], fun _ => 0, fun _ => "s0", fun _ => some "m",
    [("a", 0), ("b", 0)]⟩

/-- Environment without `GITHUB_STATS_TOKEN`; the code host is never
reached in runs using it. -/
def wNone : World := ⟨none, fun _ => []⟩

/-- Environment with a token whose code host answers every request with an
empty commit list. -/
def wEmptyApi : World := ⟨some "tok", fun _ => []⟩

/-- A code-host commit whose author date (epoch seconds 9) is later than
the merge commit timestamps used with it. -/
def ghLate : GithubCommit := ⟨"abc", ⟨⟨"n", "e", 9⟩, ⟨"n", "e", 9⟩, "m"⟩⟩

/-- Environment with a token whose code host answers every request with
the single commit `ghLate`. -/
def wLate : World := ⟨some "tok", fun _ => [ghLate]⟩

/-- Spec-side description of one occurrence of the trailer pattern: at
position `i` of `l` stand an open paren, a hash sign, the nonempty digit
run `ds`, and a close paren. -/
def trailerAt (l : List Char) (i : Nat) (ds : List Char) : Prop :=
  ds ≠ [] ∧ (∀ c ∈ ds, c.isDigit = true) ∧
    ∃ pre post, pre.length = i ∧ l = pre ++ '(' :: '#' :: (ds ++ ')' :: post)

theorem takeWhile_all_append {α : Type} (p : α → Bool) (ds : List α) (x : α) (post : List α)
    (hds : ∀ c ∈ ds, p c = true) (hx : p x = false) :
    (ds ++ x :: post).takeWhile p = ds ∧ (ds ++ x :: post).dropWhile p = x :: post := by
  induction ds with
  | nil => simp [List.takeWhile_cons, List.dropWhile_cons, hx]
  | cons d rest ih =>
    have hd : p d = true := hds d (List.mem_cons_self d rest)
    have ihh := ih (fun c hc => hds c (List.mem_cons_of_mem d hc))
    simp [List.takeWhile_cons, List.dropWhile_cons, hd, ihh.1, ihh.2]

theorem mem_takeWhile_pred {α : Type} (p : α → Bool) :
    ∀ (l : List α) (c : α), c ∈ l.takeWhile p → p c = true := by
  intro l
  induction l with
  | nil => intro c hc; simp [List.takeWhile_nil] at hc
  | cons a t ih =>
    intro c hc
    rw [List.takeWhile_cons] at hc
    cases ha : p a with
    | false => rw [ha] at hc; simp at hc
    | true =>
      rw [ha] at hc
      simp only [if_true] at hc
      rcases List.mem_cons.mp hc with h | h
      · rw [h]; exact ha
      · exact ih c h

theorem matchTrailerAt_some_iff (l : List Char) (ds : List Char) :
    matchTrailerAt l = some ds ↔ trailerAt l 0 ds := by
  constructor
  · intro h
    rcases l with _ | ⟨a, _ | ⟨b, rest⟩⟩
    · simp [matchTrailerAt] at h
    · simp [matchTrailerAt] at h
    · by_cases hab : a = '(' ∧ b = '#'
      · obtain ⟨ha, hb⟩ := hab
        subst ha; subst hb
        simp only [matchTrailerAt] at h
        split_ifs at h with h0 h1 h2
        · injection h with h
          rcases hdw : rest.dropWhile Char.isDigit with _ | ⟨c, post⟩
          · rw [hdw] at h2; simp at h2
          · rw [hdw] at h2
            simp only [List.head?] at h2
            injection h2 with h2
            subst h2
            subst h
            refine ⟨h1, fun ch hch => mem_takeWhile_pred Char.isDigit rest ch hch,
              [], post, rfl, ?_⟩
            have hr : rest.takeWhile Char.isDigit ++ rest.dropWhile Char.isDigit = rest :=
              List.takeWhile_append_dropWhile Char.isDigit rest
            rw [hdw] at hr
            simp only [List.nil_append]
            exact congrArg (fun t => '(' :: '#' :: t) hr.symm
      · simp [matchTrailerAt, hab] at h
  · rintro ⟨hne, hdig, pre, post, hlen, heq⟩
    have hpre : pre = [] := List.length_eq_zero.mp hlen
    subst hpre
    simp only [List.nil_append] at heq
    subst heq
    have hpar : Char.isDigit ')' = false := by decide
    have hts := takeWhile_all_append Char.isDigit ds ')' post hdig hpar
    simp [matchTrailerAt, hts.1, hts.2, hne]

theorem matchTrailerAt_none_iff (l : List Char) :
    matchTrailerAt l = none ↔ ∀ ds, ¬ trailerAt l 0 ds := by
  constructor
  · intro h ds hds
    have hsome := (matchTrailerAt_some_iff l ds).mpr hds
    rw [h] at hsome
    exact Option.noConfusion hsome
  · intro h
    cases hm : matchTrailerAt l with
    | none => rfl
    | some ds => exact absurd ((matchTrailerAt_some_iff l ds).mp hm) (h ds)

theorem trailerAt_cons_succ (c : Char) (cs : List Char) (i : Nat) (ds : List Char) :
    trailerAt (c :: cs) (i + 1) ds ↔ trailerAt cs i ds := by
  constructor
  · rintro ⟨h1, h2, pre, post, hlen, heq⟩
    cases pre with
    | nil => simp at hlen
    | cons p pres =>
      injection heq with hc htail
      exact ⟨h1, h2, pres, post, by simpa using hlen, htail⟩
  · rintro ⟨h1, h2, pre, post, hlen, heq⟩
    exact ⟨h1, h2, c :: pre, post, by simp [hlen], by simp [heq]⟩

theorem digit_run_unique : ∀ (ds ds2 post post2 : List Char),
    (∀ c ∈ ds, c.isDigit = true) → (∀ c ∈ ds2, c.isDigit = true) →
    ds ++ ')' :: post = ds2 ++ ')' :: post2 → ds = ds2 := by
  intro ds
  induction ds with
  | nil =>
    intro ds2 post post2 _ h2 heq
    cases ds2 with
    | nil => rfl
    | cons d rest =>
      injection heq with hd _
      have hdig := h2 d (List.mem_cons_self d rest)
      rw [← hd] at hdig
      exact absurd hdig (by decide)
  | cons d rest ih =>
    intro ds2 post post2 h1 h2 heq
    cases ds2 with
    | nil =>
      injection heq with hd _
      have hdig := h1 d (List.mem_cons_self d rest)
      rw [hd] at hdig
      exact absurd hdig (by decide)
    | cons e rest2 =>
      injection heq with hde htail
      have hr := ih rest2 post post2 (fun c hc => h1 c (List.mem_cons_of_mem d hc))
        (fun c hc => h2 c (List.mem_cons_of_mem e hc)) htail
      rw [hde, hr]

theorem trailerAt_unique {l : List Char} {i : Nat} {ds ds2 : List Char}
    (h : trailerAt l i ds) (h2 : trailerAt l i ds2) : ds = ds2 := by
  obtain ⟨_, hdig, pre, post, hlen, heq⟩ := h
  obtain ⟨_, hdig2, pre2, post2, hlen2, heq2⟩ := h2
  rw [heq] at heq2
  have hlen12 : pre.length = pre2.length := by rw [hlen, hlen2]
  obtain ⟨hpre, htail⟩ := List.append_inj heq2 hlen12
  injection htail with _ htail2
  injection htail2 with _ htail3
  exact digit_run_unique ds ds2 post post2 hdig hdig2 htail3

theorem scanTrailer_some_iff : ∀ (l : List Char) (ds : List Char),
    scanTrailer l = some ds ↔
      ∃ i, trailerAt l i ds ∧ ∀ j ds2, trailerAt l j ds2 → i ≤ j := by
  intro l
  induction l with
  | nil =>
    intro ds
    constructor
    · intro h
      simp [scanTrailer] at h
    · rintro ⟨i, ⟨hne, hdig, pre, post, hlen, heq⟩, -⟩
      have hx := heq.symm
      simp [List.append_eq_nil] at hx
  | cons c cs ih =>
    intro ds
    cases hm : matchTrailerAt (c :: cs) with
    | some ds0 =>
      have ht0 : trailerAt (c :: cs) 0 ds0 := (matchTrailerAt_some_iff _ _).mp hm
      simp only [scanTrailer, hm]
      constructor
      · intro h
        injection h with h
        subst h
        exact ⟨0, ht0, fun j ds2 _ => Nat.zero_le j⟩
      · rintro ⟨i, hti, hmin⟩
        have hi0 : i = 0 := Nat.le_zero.mp (hmin 0 ds0 ht0)
        subst hi0
        rw [trailerAt_unique hti ht0]
    | none =>
      have hnone : ∀ ds2, ¬ trailerAt (c :: cs) 0 ds2 := (matchTrailerAt_none_iff _).mp hm
      simp only [scanTrailer, hm]
      rw [ih ds]
      constructor
      · rintro ⟨i, hti, hmin⟩
        refine ⟨i + 1, (trailerAt_cons_succ c cs i ds).mpr hti, ?_⟩
        intro j ds2 hj
        cases j with
        | zero => exact absurd hj (hnone ds2)
        | succ j0 =>
          have := hmin j0 ds2 ((trailerAt_cons_succ c cs j0 ds2).mp hj)
          omega
      · rintro ⟨i, hti, hmin⟩
        cases i with
        | zero => exact absurd hti (hnone ds)
        | succ i0 =>
          refine ⟨i0, (trailerAt_cons_succ c cs i0 ds).mp hti, ?_⟩
          intro j ds2 hj
          have := hmin (j + 1) ds2 ((trailerAt_cons_succ c cs j ds2).mpr hj)
          omega

theorem scanTrailer_none_iff : ∀ l : List Char,
    scanTrailer l = none ↔ ∀ i ds, ¬ trailerAt l i ds := by
  intro l
  induction l with
  | nil =>
    constructor
    · rintro - i ds ⟨hne, hdig, pre, post, hlen, heq⟩
      have hx := heq.symm
      simp [List.append_eq_nil] at hx
    · intro _
      rfl
  | cons c cs ih =>
    cases hm : matchTrailerAt (c :: cs) with
    | some ds0 =>
      have ht0 : trailerAt (c :: cs) 0 ds0 := (matchTrailerAt_some_iff _ _).mp hm
      simp only [scanTrailer, hm]
      constructor
      · intro h
        exact Option.noConfusion h
      · intro h
        exact absurd ht0 (h 0 ds0)
    | none =>
      have hnone : ∀ ds2, ¬ trailerAt (c :: cs) 0 ds2 := (matchTrailerAt_none_iff _).mp hm
      simp only [scanTrailer, hm]
      rw [ih]
      constructor
      · intro h i ds hti
        cases i with
        | zero => exact hnone ds hti
        | succ i0 => exact h i0 ds ((trailerAt_cons_succ c cs i0 ds).mp hti)
      · intro h i ds hti
        exact h (i + 1) ds ((trailerAt_cons_succ c cs i ds).mpr hti)

theorem commit_row_shape (w : World) (sha : String) (ts : Int) (msg : String) (row : String)
    (h : commit_to_formatted_output w sha ts (some msg) = some row) :
    ∃ bt, row = sha ++ "," ++ toString ts ++ "," ++ bt ++ "," ++ msg := by
  cases he : extract_pr_from_commit_message msg with
  | none =>
    simp only [commit_to_formatted_output, he] at h
    injection h with h
    exact ⟨"unknown", h.symm⟩
  | some pr =>
    simp only [commit_to_formatted_output, he] at h
    cases hf : fetch_github_info_for_commit w ts pr with
    | error e =>
      rw [hf] at h
      exact Option.noConfusion h
    | ok ob =>
      rw [hf] at h
      cases ob with
      | some bt =>
        injection h with h
        exact ⟨toString bt, h.symm⟩
      | none =>
        injection h with h
        exact ⟨"unknown", h.symm⟩

theorem sequenceRows_eq_none {l : List (Option String)} (h : none ∈ l) :
    sequenceRows l = none := by
  induction l with
  | nil => simp at h
  | cons a t ih =>
    cases a with
    | none => rfl
    | some row =>
      have ht : none ∈ t := by
        rcases List.mem_cons.mp h with h1 | h1
        · exact Option.noConfusion h1
        · exact h1
      simp [sequenceRows, ih ht]

theorem sequenceRows_mem {l : List (Option String)} {out : List String}
    (h : sequenceRows l = some out) : ∀ x ∈ out, some x ∈ l := by
  induction l generalizing out with
  | nil =>
    simp only [sequenceRows] at h
    injection h with h
    subst h
    intro x hx
    simp at hx
  | cons a t ih =>
    cases a with
    | none => simp [sequenceRows] at h
    | some row =>
      simp only [sequenceRows] at h
      cases hs : sequenceRows t with
      | none => rw [hs] at h; simp at h
      | some out2 =>
        rw [hs] at h
        injection h with h
        subst h
        intro x hx
        rcases List.mem_cons.mp hx with h1 | h1
        · rw [h1]; exact List.mem_cons_self _ _
        · exact List.mem_cons_of_mem _ (ih hs x h1)

/-- C1 counterexample: in the linear repository `repoA` (commit 0 is the
parent of commit 1) with from = 0 and to = 1, the merge base is commit 0,
yet the resolved range is exactly [1]: contrary to the claim, the
divergence commit is not in the range at all, because hiding `from` also
suppresses the pushed merge base. -/
theorem C1_counterexample :
    merge_base repoA 0 1 = some 0 ∧
    resolvedRange repoA 0 1 = some [1] ∧
    0 ∉ revwalkOutput repoA [1, 0] [0] :=
  ⟨by decide, by decide, by decide⟩

/-- C1 amended: for resolvable refs with merge base `base`, the resolved
range is exactly the set of commits reachable from `to` and not reachable
from `from`; pushing the merge base onto the walk adds nothing, and the
merge base itself — an ancestor of `from` — is never part of the range. -/
theorem C1_range_characterization (r : Repo) (fc tc base : Nat)
    (h : merge_base r fc tc = some base) :
    resolvedRange r fc tc = some (revwalkOutput r [tc, base] [fc]) ∧
    revwalkOutput r [tc, base] [fc] = revwalkOutput r [tc] [fc] ∧
    base ∉ revwalkOutput r [tc, base] [fc] ∧
    (∀ c, c ∈ revwalkOutput r [tc, base] [fc] ↔
      c < r.n ∧ reachableB r tc c = true ∧ reachableB r fc c = false) := by
  obtain ⟨hbn, hfb, htb⟩ := merge_base_mem h
  have hmemiff : ∀ c, c ∈ revwalkOutput r [tc, base] [fc] ↔
      c < r.n ∧ reachableB r tc c = true ∧ reachableB r fc c = false := by
    intro c
    rw [mem_revwalkOutput]
    constructor
    · rintro ⟨hc, ⟨p, hp, hr⟩, hh⟩
      have hfc : reachableB r fc c = false := hh fc (List.mem_cons_self _ _)
      rcases List.mem_cons.mp hp with hptc | hpb
      · rw [hptc] at hr
        exact ⟨hc, hr, hfc⟩
      · have hpb2 : p = base := by simpa using hpb
        rw [hpb2] at hr
        have : reachableB r fc c = true := reachableB_trans r fc base c hfb hr
        rw [this] at hfc
        exact Bool.noConfusion hfc
    · rintro ⟨hc, htc, hfc⟩
      refine ⟨hc, ⟨tc, List.mem_cons_self _ _, htc⟩, ?_⟩
      intro x hx
      have hx2 : x = fc := by simpa using hx
      rw [hx2]
      exact hfc
  refine ⟨by simp [resolvedRange, h], ?_, ?_, hmemiff⟩
  · unfold revwalkOutput
    apply List.filter_congr
    intro c hc
    simp only [List.any_cons, List.any_nil, Bool.or_false]
    cases hbc : reachableB r base c with
    | false => simp [hbc]
    | true =>
      have hfcc : reachableB r fc c = true := reachableB_trans r fc base c hfb hbc
      simp [hbc, hfcc]
  · intro hmem
    rcases (hmemiff base).mp hmem with ⟨-, -, hfcb⟩
    rw [hfb] at hfcb
    exact Bool.noConfusion hfcb

/-- C1 witness: the amended characterization applied to `repoA` with
from = 0, to = 1, merge base 0. -/
theorem C1_witness :
    merge_base repoA 0 1 = some 0 ∧
    revwalkOutput repoA [1, 0] [0] = revwalkOutput repoA [1] [0] :=
  ⟨by decide, (C1_range_characterization repoA 0 1 0 (by decide)).2.1⟩

/-- C5 counterexample: both refs of `repoOne` resolve to commit 0, yet the
resolved range is empty rather than the single shared commit the claim
asks for. -/
theorem C5_counterexample :
    revparse_single repoOne "a" = Except.ok 0 ∧
    revparse_single repoOne "b" = Except.ok 0 ∧
    resolvedRange repoOne 0 0 = some [] :=
  ⟨rfl, rfl, by decide⟩

/-- C5 amended: when both refs resolve to the same commit, the merge base
is that commit, but the resolved range is empty: hiding `from` hides the
shared commit and all of its ancestors, including both pushed roots. -/
theorem C5_same_ref_empty (r : Repo) (c : Nat) (h : c < r.n) :
    merge_base r c c = some c ∧ resolvedRange r c c = some [] := by
  have hmb := merge_base_self h
  refine ⟨hmb, ?_⟩
  have hempty : revwalkOutput r [c, c] [c] = [] := by
    apply List.filter_eq_nil_iff.mpr
    intro x hx h2
    simp only [List.any_cons, List.any_nil, Bool.or_false, Bool.or_self,
      Bool.and_eq_true, Bool.not_eq_true'] at h2
    rcases h2 with ⟨h3, h4⟩
    rw [h3] at h4
    exact Bool.noConfusion h4
  simp [resolvedRange, hmb, hempty]

/-- C5 witness: the amended statement applied to the one-commit repository
with both refs at commit 0. -/
theorem C5_witness : 0 < repoOne.n ∧ resolvedRange repoOne 0 0 = some [] :=
  ⟨by decide, (C5_same_ref_empty repoOne 0 (by decide)).2⟩

/-- C8: when the two refs resolve but share no common history, range
resolution fails with the no-common-ancestor error, surfaced to the caller
(`main` panics with a diagnostic instead of writing an empty report). -/
theorem C8_no_common_ancestor (w : World) (r : Repo) (fr tr : String) (fc tc : Nat)
    (hf : revparse_single r fr = Except.ok fc)
    (ht : revparse_single r tr = Except.ok tc)
    (hno : ∀ c, c < r.n → ¬(reachableB r fc c = true ∧ reachableB r tc c = true)) :
    get_commit_log w r fr tr = RunResult.error GitError.noCommonAncestor ∧
      main_model w r fr tr = RunResult.panicked := by
  have hmb : merge_base r fc tc = none := merge_base_eq_none hno
  have h1 : get_commit_log w r fr tr = RunResult.error GitError.noCommonAncestor := by
    simp only [get_commit_log, hf, ht, hmb]
  exact ⟨h1, by simp only [main_model, h1]⟩

/-- C8 witness: the disjoint-history repository with refs `a` and `b`. -/
theorem C8_witness :
    revparse_single repoDisj "a" = Except.ok 0 ∧
    revparse_single repoDisj "b" = Except.ok 1 ∧
    get_commit_log wNone repoDisj "a" "b" = RunResult.error GitError.noCommonAncestor ∧
    main_model wNone repoDisj "a" "b" = RunResult.panicked := by
  have h := C8_no_common_ancestor wNone repoDisj "a" "b" 0 1 rfl rfl (by decide)
  exact ⟨rfl, rfl, h.1, h.2⟩

/-- C2 counterexample: a concrete run emits the row `s1,5,unknown,msg one`,
which has four comma separated fields, not six, and the output starts with
that data row — its first ten characters are not `commit_sha`, so no header
row precedes the data. -/
theorem C2_counterexample :
    get_commit_log wNone repoA "a" "b" = RunResult.ok "s1,5,unknown,msg one" ∧
    (("s1,5,unknown,msg one").data.splitOn ',').length = 4 ∧
    ("s1,5,unknown,msg one").data.take 10 ≠ ("commit_sha").data :=
  ⟨by decide, by decide, by decide⟩

/-- C2 amended: every emitted row consists of exactly four fields in fixed
order — commit id, commit timestamp, latency in seconds or the literal
`unknown`, message — with no PR-number field and no author field, and the
output of a successful run is exactly the newline join of such rows with
no header row. -/
theorem C2_row_format (w : World) (r : Repo) (fr tr : String) (s : String)
    (h : get_commit_log w r fr tr = RunResult.ok s) :
    ∃ rows : List String, s = String.intercalate "\n" rows ∧
      ∀ row ∈ rows, ∃ (sha : String) (ts : Int) (bt msg : String),
        row = sha ++ "," ++ toString ts ++ "," ++ bt ++ "," ++ msg := by
  unfold get_commit_log at h
  split at h
  · exact RunResult.noConfusion h
  · split at h
    · exact RunResult.noConfusion h
    · split at h
      · exact RunResult.noConfusion h
      · split at h
        · exact RunResult.noConfusion h
        · rename_i fc tc base rows hsq
          injection h with h
          refine ⟨rows, h.symm, ?_⟩
          intro row hrow
          have hsome := sequenceRows_mem hsq row hrow
          obtain ⟨c, hc, hcrow⟩ := List.mem_map.mp hsome
          cases hs : r.summary c with
          | none =>
            rw [hs] at hcrow
            exact Option.noConfusion hcrow
          | some msg =>
            rw [hs] at hcrow
            obtain ⟨bt, hbt⟩ := commit_row_shape w (r.sha c) (r.timestamp c) msg row hcrow
            exact ⟨r.sha c, r.timestamp c, bt, msg, hbt⟩

/-- C2 witness: the amended row format applied to the concrete run over
`repoA`. -/
theorem C2_witness :
    get_commit_log wNone repoA "a" "b" = RunResult.ok "s1,5,unknown,msg one" ∧
    (∃ rows : List String, "s1,5,unknown,msg one" = String.intercalate "\n" rows ∧
      ∀ row ∈ rows, ∃ (sha : String) (ts : Int) (bt msg : String),
        row = sha ++ "," ++ toString ts ++ "," ++ bt ++ "," ++ msg) :=
  ⟨by decide, C2_row_format wNone repoA "a" "b" "s1,5,unknown,msg one" (by decide)⟩

/-- C3: with a token present, the latency of a correlated PR is the commit
timestamp minus the epoch-seconds author date of the first (index 0)
commit of the code host's response, whatever its sign; an empty response
yields `Ok(None)` — reported as `unknown` in the row — without error or
abort. -/
theorem C3_latency (w : World) (ts : Int) (pr tok : String) (hw : w.token = some tok) :
    (∀ c rest, w.api (github_url pr tok) = c :: rest →
      fetch_github_info_for_commit w ts pr
        = Except.ok (some (ts - c.commit.author.dateSeconds))) ∧
    (w.api (github_url pr tok) = [] →
      fetch_github_info_for_commit w ts pr = Except.ok none) ∧
    (∀ sha msg, extract_pr_from_commit_message msg = some pr →
      w.api (github_url pr tok) = [] →
      commit_to_formatted_output w sha ts (some msg)
        = some (sha ++ "," ++ toString ts ++ "," ++ "unknown" ++ "," ++ msg)) := by
  refine ⟨?_, ?_, ?_⟩
  · intro c rest hapi
    simp [fetch_github_info_for_commit, hw, hapi]
  · intro hapi
    simp [fetch_github_info_for_commit, hw, hapi]
  · intro sha msg hex hapi
    have hfet : fetch_github_info_for_commit w ts pr = Except.ok none := by
      simp [fetch_github_info_for_commit, hw, hapi]
    simp [commit_to_formatted_output, hex, hfet]

/-- C3 witness: a response whose first commit has author date 9 against a
commit timestamp of 5 yields the negative latency -4, and an empty
response yields no latency and an `unknown` row. -/
theorem C3_witness :
    wLate.token = some "tok" ∧
    wLate.api (github_url "7" "tok") = [ghLate] ∧
    fetch_github_info_for_commit wLate 5 "7" = Except.ok (some (-4)) ∧
    wEmptyApi.token = some "tok" ∧
    fetch_github_info_for_commit wEmptyApi 5 "7" = Except.ok none ∧
    commit_to_formatted_output wEmptyApi "s1" 5 (some "fix stuff (#7)")
      = some ("s1" ++ "," ++ toString (5 : Int) ++ "," ++ "unknown" ++ ","
          ++ "fix stuff (#7)") := by
  refine ⟨rfl, rfl, ?_, rfl, ?_, ?_⟩
  · have h := (C3_latency wLate 5 "7" "tok" rfl).1 ghLate [] rfl
    have h2 : (5 : Int) - ghLate.commit.author.dateSeconds = -4 := by decide
    rw [h2] at h
    exact h
  · exact (C3_latency wEmptyApi 5 "7" "tok" rfl).2.1 rfl
  · exact (C3_latency wEmptyApi 5 "7" "tok" rfl).2.2 "s1" "fix stuff (#7)" (by decide) rfl

/-- C4: PR extraction returns the digit run of the first (leftmost)
occurrence of the pattern open paren, hash sign, one or more digits, close
paren; it returns nothing when no occurrence exists; and on the line
"(#1) then (#2)" it extracts 1. -/
theorem C4_extraction_leftmost :
    (∀ l ds, scanTrailer l = some ds ↔
      ∃ i, trailerAt l i ds ∧ ∀ j ds2, trailerAt l j ds2 → i ≤ j) ∧
    (∀ l, scanTrailer l = none ↔ ∀ i ds, ¬ trailerAt l i ds) ∧
    extract_pr_from_commit_message "(#1) then (#2)" = some "1" :=
  ⟨scanTrailer_some_iff, scanTrailer_none_iff, by decide⟩

/-- C4 witness: the characterization applied to the concrete line
"(#1) then (#2)" and its extracted digit run. -/
theorem C4_witness :
    ∃ i, trailerAt ("(#1) then (#2)").data i ['1'] ∧
      ∀ j ds2, trailerAt ("(#1) then (#2)").data j ds2 → i ≤ j :=
  (C4_extraction_leftmost.1 ("(#1) then (#2)").data ['1']).mp (by decide)

/-- C6 counterexample: with the token absent, the full run over `repoA`
(whose commits carry no PR trailers) succeeds and produces its report, so
the missing token is not a fatal configuration error before any work
begins; the same absent token panics the run over `repoPR` only when the
commit carrying a PR trailer is processed. -/
theorem C6_counterexample :
    wNone.token = none ∧
    main_model wNone repoA "a" "b"
      = RunResult.ok (output_file_path "a" "b", "s1,5,unknown,msg one") ∧
    get_commit_log wNone repoPR "a" "b" = RunResult.panicked :=
  ⟨rfl, by decide, by decide⟩

/-- C6 amended: the token is read from the environment during per-commit
processing, once per commit carrying a PR trailer, not once at startup:
with the token absent, a commit without a PR trailer still formats
successfully, while a commit with a PR trailer panics the run. -/
theorem C6_token_per_call (w : World) (sha : String) (ts : Int) (msg : String)
    (hw : w.token = none) :
    (extract_pr_from_commit_message msg = none →
      commit_to_formatted_output w sha ts (some msg)
        = some (sha ++ "," ++ toString ts ++ "," ++ "unknown" ++ "," ++ msg)) ∧
    (∀ pr, extract_pr_from_commit_message msg = some pr →
      commit_to_formatted_output w sha ts (some msg) = none) := by
  constructor
  · intro h
    simp [commit_to_formatted_output, h]
  · intro pr h
    have hfet : fetch_github_info_for_commit w ts pr
        = Except.error "Token not found!" := by
      simp [fetch_github_info_for_commit, hw]
    simp [commit_to_formatted_output, h, hfet]

/-- C6 witness: with the token absent, a trailer-free message formats and a
message with trailer `(#7)` panics. -/
theorem C6_witness :
    wNone.token = none ∧
    commit_to_formatted_output wNone "s0" 1 (some "msg one")
      = some ("s0" ++ "," ++ toString (1 : Int) ++ "," ++ "unknown" ++ "," ++ "msg one") ∧
    commit_to_formatted_output wNone "s1" 5 (some "fix stuff (#7)") = none :=
  ⟨rfl, (C6_token_per_call wNone "s0" 1 "msg one" rfl).1 (by decide),
    (C6_token_per_call wNone "s1" 5 "fix stuff (#7)" rfl).2 "7" (by decide)⟩

/-- C7 counterexample: for the trailer-free message `hello` the emitted row
is `s0,1,unknown,hello`: it has four fields and exactly one field equal to
`unknown`, so it cannot carry `unknown` in two distinct pull_request and
branch_time_seconds fields as the claim states. -/
theorem C7_counterexample :
    extract_pr_from_commit_message "hello" = none ∧
    commit_to_formatted_output wNone "s0" 1 (some "hello")
      = some "s0,1,unknown,hello" ∧
    (("s0,1,unknown,hello").data.splitOn ',').length = 4 ∧
    ((("s0,1,unknown,hello").data.splitOn ',').filter
      (fun f => f = ("unknown").data)).length = 1 :=
  ⟨by decide, by decide, by decide, by decide⟩

/-- C7 amended: a message without a parenthesized hash-number trailer gives
no PR, and its row is the four-field row whose single `unknown` stands in
the latency (branch time) field; the row has no separate pull_request
field. -/
theorem C7_no_trailer_row (w : World) (sha : String) (ts : Int) (msg : String)
    (h : extract_pr_from_commit_message msg = none) :
    commit_to_formatted_output w sha ts (some msg)
      = some (sha ++ "," ++ toString ts ++ "," ++ "unknown" ++ "," ++ msg) := by
  simp [commit_to_formatted_output, h]

/-- C7 witness: the amended row shape at the concrete message `hi there`. -/
theorem C7_witness :
    extract_pr_from_commit_message ("hi there") = none ∧
    commit_to_formatted_output wNone "s9" 3 (some "hi there")
      = some ("s9" ++ "," ++ toString (3 : Int) ++ "," ++ "unknown" ++ "," ++ "hi there") :=
  ⟨by decide, C7_no_trailer_row wNone "s9" 3 "hi there" (by decide)⟩

/-- C9 counterexample: the usage string declares exactly three positional
arguments — git_repo_path, from_tag, to_tag — so there is no fourth
code-host repository identifier argument, and the request URL hardcodes
the GitHub repository `THG-Voyager/voyager`. -/
theorem C9_counterexample :
    usagePositionalArgs = ["<git_repo_path>", "<from_tag>", "<to_tag>"] ∧
    usagePositionalArgs.length ≠ 4 ∧
    github_url "1" "t"
      = "https://api.github.com/repos/THG-Voyager/voyager/pulls/1/commits?access_token=t" :=
  ⟨by decide, by decide, by decide⟩

/-- C9 amended: the CLI accepts three positional arguments (git_repo_path,
from_tag, to_tag), and every code-host query URL is rooted at the
hardcoded repository `THG-Voyager/voyager`, independent of the arguments. -/
theorem C9_cli_and_url :
    usagePositionalArgs = ["<git_repo_path>", "<from_tag>", "<to_tag>"] ∧
    ∀ pr tok, ∃ rest,
      github_url pr tok
        = "https://api.github.com/repos/THG-Voyager/voyager/pulls/" ++ rest := by
  refine ⟨by decide, ?_⟩
  intro pr tok
  exact ⟨pr ++ "/commits?access_token=" ++ tok, by simp [github_url, String.append_assoc]⟩

/-- C10: row formatting is total only for commits with a summary line: a
commit in the resolved range whose summary is absent makes
`commit_to_formatted_output` panic, which aborts the entire run instead of
emitting a row or returning an error value. -/
theorem C10_missing_summary_panics (w : World) (r : Repo) (fr tr : String)
    (fc tc base c : Nat)
    (hf : revparse_single r fr = Except.ok fc)
    (ht : revparse_single r tr = Except.ok tc)
    (hmb : merge_base r fc tc = some base)
    (hc : c ∈ revwalkOutput r [tc, base] [fc])
    (hs : r.summary c = none) :
    commit_to_formatted_output w (r.sha c) (r.timestamp c) (r.summary c) = none ∧
    get_commit_log w r fr tr = RunResult.panicked := by
  have hrow : commit_to_formatted_output w (r.sha c) (r.timestamp c) (r.summary c) = none := by
    rw [hs]
    rfl
  refine ⟨hrow, ?_⟩
  have hmem : (none : Option String) ∈ (revwalkOutput r [tc, base] [fc]).map
      (fun c => commit_to_formatted_output w (r.sha c) (r.timestamp c) (r.summary c)) :=
    List.mem_map.mpr ⟨c, hc, hrow⟩
  have hseq := sequenceRows_eq_none hmem
  simp only [get_commit_log, hf, ht, hmb, hseq]

/-- C10 witness: the summary-less tip of `repoNoSum` aborts the whole run. -/
theorem C10_witness :
    repoNoSum.summary 1 = none ∧
    get_commit_log wNone repoNoSum "a" "b" = RunResult.panicked :=
  ⟨rfl, (C10_missing_summary_panics wNone repoNoSum "a" "b" 0 1 0 1 rfl rfl
    (by decide) (by decide) rfl).2⟩

end BranchTime
